import Mathlib

/-!
Verification of the repo-agent analysis orchestrator core.

This file gives a shallow embedding of the parts of the repository that the
verified properties are about:

* `repo_agent/utils/performance.py` — the thread-safe `LRUCache`
  (`get`/`put`/`_is_expired`/`_remove_key`), the
  `PerformanceOptimizer.measure_performance` context manager together with
  `PerformanceMetrics.finish`, and the content-fingerprint computation
  (`get_file_content_hash` / `_get_partial_hash` / `_get_full_hash`).
* `repo_agent/parsers/dotnet_parser.py` — the `DotNetParser` strategy
  selection (`_select_strategy`, `_parse_auto`), the backend fallback chains
  (`_parse_with_treesitter` / `_parse_with_roslyn` / `_parse_with_hybrid` /
  `_parse_with_extractor`) and the `parse_file` result cache.

Modelling conventions: Python dicts / OrderedDicts become association lists
(with a wellformedness hypothesis `Nodup` on the keys where a theorem needs
the dict property that a key occurs at most once); wall-clock instants are
rationals passed explicitly to each operation; exceptions become `Option` /
`Except` / an explicit error result; the md5 digest is modelled by the exact
byte stream that the Python code feeds into `hashlib.md5`, since the digest
is a deterministic function of that stream.
-/

namespace RepoAgent

/-! ## Association-list primitives (Python `dict` / `OrderedDict` views) -/

variable {K V A : Type}

/-- Dictionary lookup: `d.get(k)` / `k in d` on an association list. -/
def alookup [DecidableEq K] : List (K × A) → K → Option A
  | [], _ => none
  | (k', a) :: rest, k => if k' = k then some a else alookup rest k

/-- Dictionary deletion: `d.pop(k, None)`; removes the (unique) binding. -/
def aremove [DecidableEq K] : List (K × A) → K → List (K × A)
  | [], _ => []
  | (k', a) :: rest, k => if k' = k then rest else (k', a) :: aremove rest k

/-- Dictionary write `d[k] = a`: updates in place if present, else appends
(Python dicts preserve insertion order). -/
def aset [DecidableEq K] : List (K × A) → K → A → List (K × A)
  | [], k, a => [(k, a)]
  | (k', a') :: rest, k, a =>
    if k' = k then (k, a) :: rest else (k', a') :: aset rest k a

theorem alookup_aset [DecidableEq K] (l : List (K × A)) (k : K) (a : A) :
    alookup (aset l k a) k = some a := by
  induction l with
  | nil => simp [aset, alookup]
  | cons hd tl ih =>
    obtain ⟨k', a'⟩ := hd
    by_cases h : k' = k
    · simp [aset, alookup, h]
    · simp [aset, alookup, h, ih]

theorem length_aremove_le [DecidableEq K] (l : List (K × A)) (k : K) :
    (aremove l k).length ≤ l.length := by
  induction l with
  | nil => simp [aremove]
  | cons hd tl ih =>
    obtain ⟨k', a'⟩ := hd
    by_cases h : k' = k
    · simp [aremove, h]
    · simp [aremove, h]
      omega

theorem length_aremove_of_mem [DecidableEq K] (l : List (K × A)) (k : K) (a : A)
    (h : alookup l k = some a) : (aremove l k).length + 1 = l.length := by
  induction l with
  | nil => simp [alookup] at h
  | cons hd tl ih =>
    obtain ⟨k', a'⟩ := hd
    by_cases hk : k' = k
    · simp [aremove, hk]
    · simp [alookup, hk] at h
      simp [aremove, hk, ih h]

theorem alookup_append_of_none [DecidableEq K] (l l' : List (K × A)) (k : K)
    (h : alookup l k = none) : alookup (l ++ l') k = alookup l' k := by
  induction l with
  | nil => simp
  | cons hd tl ih =>
    obtain ⟨k', a'⟩ := hd
    by_cases hk : k' = k
    · simp [alookup, hk] at h
    · simp [alookup, hk] at h ⊢
      exact ih h

theorem alookup_eq_none_of_not_mem_keys [DecidableEq K] (l : List (K × A)) (k : K)
    (h : k ∉ l.map Prod.fst) : alookup l k = none := by
  induction l with
  | nil => simp [alookup]
  | cons hd tl ih =>
    obtain ⟨k', a'⟩ := hd
    rw [List.map_cons, List.mem_cons] at h
    push_neg at h
    have hk : ¬ k' = k := fun hc => h.1 hc.symm
    simp only [alookup, if_neg hk]
    exact ih h.2

theorem not_mem_keys_aremove [DecidableEq K] (l : List (K × A)) (k : K)
    (h : (l.map Prod.fst).Nodup) : k ∉ (aremove l k).map Prod.fst := by
  induction l with
  | nil => simp [aremove]
  | cons hd tl ih =>
    obtain ⟨k', a'⟩ := hd
    rw [List.map_cons, List.nodup_cons] at h
    by_cases hk : k' = k
    · subst hk
      simpa [aremove] using h.1
    · simp only [aremove, if_neg hk, List.map_cons, List.mem_cons]
      push_neg
      exact ⟨fun hc => hk hc.symm, ih h.2⟩

theorem alookup_aremove_self [DecidableEq K] (l : List (K × A)) (k : K)
    (h : (l.map Prod.fst).Nodup) : alookup (aremove l k) k = none :=
  alookup_eq_none_of_not_mem_keys _ _ (not_mem_keys_aremove l k h)

theorem map_fst_aremove [DecidableEq K] (l : List (K × A)) (k : K) :
    (aremove l k).map Prod.fst = (l.map Prod.fst).erase k := by
  induction l with
  | nil => simp [aremove]
  | cons hd tl ih =>
    obtain ⟨k', a'⟩ := hd
    by_cases hk : k' = k
    · simp [aremove, hk, List.erase_cons_head]
    · simp [aremove, hk, List.erase_cons_tail, ih]

/-! ## `LRUCache` (`repo_agent/utils/performance.py`, lines 68–159)

The `OrderedDict` state is a list of key/value pairs whose head is the
least-recently-used entry; `timestamps` is the companion `dict`. The wall
clock (`time.time()`) is an explicit rational argument `now`. A `put` that
raises (`next(iter(...))` on an empty `OrderedDict` when `max_size = 0`)
returns `none`. -/

structure LRUCache (K V : Type) where
  max_size : ℕ
  ttl : Option ℚ
  cache : List (K × V)
  timestamps : List (K × ℚ)
  hits : ℕ
  misses : ℕ

/-- Embeds `LRUCache.__init__`. -/
def LRUCache.empty (K V : Type) (maxSize : ℕ) (ttl : Option ℚ) : LRUCache K V :=
  { max_size := maxSize, ttl := ttl, cache := [], timestamps := [],
    hits := 0, misses := 0 }

@[simp] theorem LRUCache.empty_max_size (K V : Type) (n : ℕ) (t : Option ℚ) :
    (LRUCache.empty K V n t).max_size = n := rfl

@[simp] theorem LRUCache.empty_ttl (K V : Type) (n : ℕ) (t : Option ℚ) :
    (LRUCache.empty K V n t).ttl = t := rfl

@[simp] theorem LRUCache.empty_cache (K V : Type) (n : ℕ) (t : Option ℚ) :
    (LRUCache.empty K V n t).cache = [] := rfl

@[simp] theorem LRUCache.empty_timestamps (K V : Type) (n : ℕ) (t : Option ℚ) :
    (LRUCache.empty K V n t).timestamps = [] := rfl

/-- Embeds `LRUCache._is_expired`: `time.time() - self.timestamps.get(key, 0) > self.ttl`
(with `ttl = None` never expiring). -/
def LRUCache.isExpired [DecidableEq K] (c : LRUCache K V) (k : K) (now : ℚ) : Bool :=
  match c.ttl with
  | none => false
  | some t => decide (t < now - ((alookup c.timestamps k).getD 0))

/-- Embeds `LRUCache.get`: miss on absent key; expired entries are removed on read
(`_remove_key`) and counted as misses; a hit pops the entry and re-appends it
at the most-recently-used end. -/
def LRUCache.get [DecidableEq K] (c : LRUCache K V) (k : K) (now : ℚ) :
    Option V × LRUCache K V :=
  match alookup c.cache k with
  | none => (none, { c with misses := c.misses + 1 })
  | some v =>
    if c.isExpired k now then
      (none, { c with cache := aremove c.cache k,
                      timestamps := aremove c.timestamps k,
                      misses := c.misses + 1 })
    else
      (some v, { c with cache := aremove c.cache k ++ [(k, v)],
                        hits := c.hits + 1 })

/-- Embeds `LRUCache.put`: an existing key is popped first (no eviction); otherwise,
at capacity, the head (`next(iter(self.cache))`) is evicted via `_remove_key`.
With `max_size = 0` and an empty cache, `next(iter(...))` raises
`StopIteration`, modelled by `none`. The new entry is appended at the
most-recently-used end and its timestamp recorded. -/
def LRUCache.put [DecidableEq K] (c : LRUCache K V) (k : K) (v : V) (now : ℚ) :
    Option (LRUCache K V) :=
  if (alookup c.cache k).isSome then
    some { c with cache := aremove c.cache k ++ [(k, v)],
                  timestamps := aset c.timestamps k now }
  else if c.max_size ≤ c.cache.length then
    match c.cache.head? with
    | none => none
    | some (k0, _) =>
      some { c with cache := aremove c.cache k0 ++ [(k, v)],
                    timestamps := aset (aremove c.timestamps k0) k now }
  else
    some { c with cache := c.cache ++ [(k, v)],
                  timestamps := aset c.timestamps k now }

/-- A client-visible cache operation together with the instant it happens. -/
inductive CacheOp (K V : Type) where
  | get (k : K) (now : ℚ)
  | put (k : K) (v : V) (now : ℚ)

/-- Run one operation; a `put` that raises leaves the state unchanged
(the Python exception fires before any mutation). -/
def applyOp [DecidableEq K] (c : LRUCache K V) : CacheOp K V → LRUCache K V
  | CacheOp.get k now => (c.get k now).2
  | CacheOp.put k v now => (c.put k v now).getD c

/-- Run a sequence of operations left to right. -/
def applyOps [DecidableEq K] (c : LRUCache K V) (ops : List (CacheOp K V)) :
    LRUCache K V :=
  ops.foldl applyOp c

/-- Run a sequence of `put`s, propagating a raised exception as `none`. -/
def putSeq [DecidableEq K] (c : LRUCache K V) :
    List (K × V × ℚ) → Option (LRUCache K V)
  | [] => some c
  | (k, v, t) :: rest =>
    match c.put k v t with
    | none => none
    | some c' => putSeq c' rest

theorem alookup_aremove_of_none [DecidableEq K] (l : List (K × A)) (k k0 : K)
    (h : alookup l k = none) : alookup (aremove l k0) k = none := by
  induction l with
  | nil => simp [aremove, alookup]
  | cons hd tl ih =>
    obtain ⟨k', a'⟩ := hd
    by_cases hk' : k' = k
    · simp [alookup, hk'] at h
    · simp only [alookup, if_neg hk'] at h
      by_cases hk0 : k' = k0
      · simpa [aremove, hk0] using h
      · simp only [aremove, if_neg hk0, alookup, if_neg hk']
        exact ih h

/-- After a non-raising `put(k, v)` at instant `s`, the key `k` is bound to
`v` in the `OrderedDict` and its timestamp is `s`; the TTL is untouched. -/
theorem put_getD_spec [DecidableEq K] (c : LRUCache K V) (k : K) (v : V) (s : ℚ)
    (hwf : (c.cache.map Prod.fst).Nodup) (hmax : 1 ≤ c.max_size) :
    alookup ((c.put k v s).getD c).cache k = some v ∧
    alookup ((c.put k v s).getD c).timestamps k = some s ∧
    ((c.put k v s).getD c).ttl = c.ttl := by
  unfold LRUCache.put
  by_cases h1 : (alookup c.cache k).isSome
  · simp only [if_pos h1, Option.getD_some]
    refine ⟨?_, alookup_aset _ _ _, trivial⟩
    rw [alookup_append_of_none _ _ _ (alookup_aremove_self _ _ hwf)]
    simp [alookup]
  · have hnone : alookup c.cache k = none := by
      cases hl : alookup c.cache k with
      | none => rfl
      | some w => rw [hl] at h1; simp at h1
    simp only [if_neg h1]
    by_cases h2 : c.max_size ≤ c.cache.length
    · simp only [if_pos h2]
      cases hc : c.cache with
      | nil =>
        rw [hc] at h2
        simp at h2
        omega
      | cons hd rest =>
        obtain ⟨k0, v0⟩ := hd
        simp only [hc, List.head?_cons, Option.getD_some]
        refine ⟨?_, alookup_aset _ _ _, trivial⟩
        rw [alookup_append_of_none]
        · simp [alookup]
        · rw [← hc]
          exact alookup_aremove_of_none _ _ _ hnone
    · simp only [if_neg h2, Option.getD_some]
      refine ⟨?_, alookup_aset _ _ _, trivial⟩
      rw [alookup_append_of_none _ _ _ hnone]
      simp [alookup]

/-- C2. For every key `k` and value `v`, on a well-formed cache that can hold
at least one entry, `put(k, v)` at instant `s` followed by `get(k)` at an
instant `now` within the TTL window (or with no TTL at all) returns `v`.
The TTL is either `None` or strictly positive with `now - s` not past it,
exactly as the spec's edge-case carve-out demands. -/
theorem lru_put_then_get [DecidableEq K] (c : LRUCache K V) (k : K) (v : V)
    (s now : ℚ) (hwf : (c.cache.map Prod.fst).Nodup) (hmax : 1 ≤ c.max_size)
    (httl : c.ttl = none ∨ ∃ t, c.ttl = some t ∧ 0 < t ∧ now - s ≤ t) :
    ((((c.put k v s).getD c).get k now).1 = some v) := by
  obtain ⟨hck, hts, httl'⟩ := put_getD_spec c k v s hwf hmax
  have hexp : ((c.put k v s).getD c).isExpired k now = false := by
    unfold LRUCache.isExpired
    rw [httl']
    rcases httl with h | ⟨t, ht, hpos, hle⟩
    · rw [h]
    · rw [ht, hts]
      simp only [Option.getD_some, decide_eq_false_iff_not, not_lt]
      exact hle
  unfold LRUCache.get
  rw [hck, hexp]
  simp

/-- Witness for C2 at a concrete input: capacity 2, TTL 10, `put 1 7` at
instant 0 then `get 1` at instant 3 returns 7. -/
theorem lru_put_then_get_witness :
    ((((LRUCache.empty ℕ ℕ 2 (some 10)).put 1 7 0).getD
        (LRUCache.empty ℕ ℕ 2 (some 10))).get 1 3).1 = some 7 := by
  apply lru_put_then_get (LRUCache.empty ℕ ℕ 2 (some 10)) 1 7 0 3
  · simp [LRUCache.empty]
  · norm_num [LRUCache.empty]
  · exact Or.inr ⟨10, rfl, by norm_num, by norm_num⟩

theorem putSeq_append [DecidableEq K] (xs ys : List (K × V × ℚ)) :
    ∀ c : LRUCache K V,
      putSeq c (xs ++ ys) = (putSeq c xs).bind (fun c' => putSeq c' ys) := by
  induction xs with
  | nil => intro c; simp [putSeq]
  | cons hd tl ih =>
    intro c
    obtain ⟨k, v, t⟩ := hd
    simp only [List.cons_append, putSeq]
    cases hp : c.put k v t with
    | none => simp
    | some c' => simp [ih]

/-- Inserting fresh, pairwise-distinct keys into a cache with enough spare
capacity never raises and appends the new entries in insertion order. -/
theorem putSeq_fresh [DecidableEq K] (kvs : List (K × V × ℚ)) :
    ∀ c : LRUCache K V,
      (kvs.map (fun e => e.1)).Nodup →
      (∀ k ∈ kvs.map (fun e => e.1), alookup c.cache k = none) →
      c.cache.length + kvs.length ≤ c.max_size →
      ∃ c', putSeq c kvs = some c' ∧
        c'.cache = c.cache ++ kvs.map (fun e => (e.1, e.2.1)) ∧
        c'.max_size = c.max_size ∧ c'.ttl = c.ttl := by
  induction kvs with
  | nil =>
    intro c _ _ _
    exact ⟨c, rfl, by simp, rfl, rfl⟩
  | cons hd tl ih =>
    intro c hnodup hfresh hlen
    obtain ⟨k, v, t⟩ := hd
    rw [List.map_cons, List.nodup_cons] at hnodup
    have hk0 : alookup c.cache k = none := hfresh k (by simp)
    have hnotfull : ¬ c.max_size ≤ c.cache.length := by
      simp only [List.length_cons] at hlen
      omega
    have hput : c.put k v t = some
        { c with cache := c.cache ++ [(k, v)],
                 timestamps := aset c.timestamps k t } := by
      unfold LRUCache.put
      rw [hk0]
      simp [hnotfull]
    obtain ⟨c', hseq, hcache, hmax, httl⟩ := ih
      { c with cache := c.cache ++ [(k, v)],
               timestamps := aset c.timestamps k t }
      hnodup.2
      (by
        intro k' hk'
        have h1 : alookup c.cache k' = none := hfresh k' (by simp [hk'])
        rw [alookup_append_of_none _ _ _ h1]
        have : ¬ k = k' := fun hc => hnodup.1 (hc ▸ hk')
        simp [alookup, this])
      (by
        simp only [List.length_append, List.length_cons, List.length_nil] at hlen ⊢
        omega)
    refine ⟨c', ?_, ?_, hmax, httl⟩
    · simp only [putSeq, hput]
      exact hseq
    · rw [hcache]
      simp

theorem get_cache_length_le [DecidableEq K] (c : LRUCache K V) (k : K) (now : ℚ) :
    ((c.get k now).2).cache.length ≤ c.cache.length := by
  unfold LRUCache.get
  cases hl : alookup c.cache k with
  | none => simp
  | some v =>
    by_cases hexp : c.isExpired k now = true
    · simp only [hexp, if_true]
      exact length_aremove_le _ _
    · rw [Bool.not_eq_true] at hexp
      simp only [hexp, Bool.false_eq_true, if_false]
      simp only [List.length_append, List.length_cons, List.length_nil]
      have := length_aremove_of_mem c.cache k v hl
      omega

theorem put_getD_cache_length_le [DecidableEq K] (c : LRUCache K V) (k : K)
    (v : V) (now : ℚ) (h : c.cache.length ≤ c.max_size) :
    ((c.put k v now).getD c).cache.length ≤ c.max_size := by
  unfold LRUCache.put
  by_cases h1 : (alookup c.cache k).isSome
  · obtain ⟨w, hw⟩ := Option.isSome_iff_exists.mp h1
    simp only [h1, if_true, Option.getD_some]
    simp only [List.length_append, List.length_cons, List.length_nil]
    have := length_aremove_of_mem c.cache k w hw
    omega
  · simp only [h1, Bool.false_eq_true, if_false]
    by_cases h2 : c.max_size ≤ c.cache.length
    · simp only [h2, if_true]
      cases hc : c.cache with
      | nil => simp [hc] at h ⊢
      | cons hd rest =>
        obtain ⟨k0, v0⟩ := hd
        simp only [List.head?_cons, Option.getD_some]
        simp only [List.length_append, List.length_cons, List.length_nil]
        have ha : aremove ((k0, v0) :: rest) k0 = rest := by simp [aremove]
        rw [hc] at h
        rw [ha]
        simp only [List.length_cons] at h
        omega
    · simp only [h2, if_false, Option.getD_some]
      simp only [List.length_append, List.length_cons, List.length_nil]
      omega

theorem applyOp_max_size [DecidableEq K] (c : LRUCache K V) (op : CacheOp K V) :
    (applyOp c op).max_size = c.max_size := by
  cases op with
  | get k now =>
    simp only [applyOp]
    unfold LRUCache.get
    cases alookup c.cache k with
    | none => rfl
    | some v =>
      by_cases hexp : c.isExpired k now = true
      · simp [hexp]
      · rw [Bool.not_eq_true] at hexp
        simp [hexp]
  | put k v now =>
    simp only [applyOp]
    unfold LRUCache.put
    by_cases h1 : (alookup c.cache k).isSome
    · simp [h1]
    · simp only [h1, Bool.false_eq_true, if_false]
      by_cases h2 : c.max_size ≤ c.cache.length
      · simp only [h2, if_true]
        cases hc : c.cache.head? with
        | none => rfl
        | some hd =>
          obtain ⟨k0, v0⟩ := hd
          rfl
      · simp [h2]

theorem applyOp_cache_length_le [DecidableEq K] (c : LRUCache K V)
    (op : CacheOp K V) (h : c.cache.length ≤ c.max_size) :
    (applyOp c op).cache.length ≤ c.max_size := by
  cases op with
  | get k now => exact le_trans (get_cache_length_le c k now) h
  | put k v now => exact put_getD_cache_length_le c k v now h

theorem applyOps_cache_length_le [DecidableEq K] (ops : List (CacheOp K V)) :
    ∀ c : LRUCache K V, c.cache.length ≤ c.max_size →
      (applyOps c ops).cache.length ≤ c.max_size := by
  induction ops with
  | nil => intro c h; simpa [applyOps] using h
  | cons op rest ih =>
    intro c h
    have h1 : (applyOp c op).cache.length ≤ (applyOp c op).max_size := by
      rw [applyOp_max_size]
      exact applyOp_cache_length_le c op h
    have h2 := ih (applyOp c op) h1
    rw [applyOp_max_size] at h2
    simpa [applyOps] using h2

/-- Filling a fresh capacity-`N` cache with `N` distinct keys and then
putting one more fresh key evicts exactly the head (first-inserted) key. -/
theorem putSeq_evict_last [DecidableEq K] (f0 : K × V × ℚ)
    (ftl : List (K × V × ℚ)) (kl : K) (vl : V) (lt : ℚ) (N : ℕ)
    (ttl : Option ℚ) (hlen : (f0 :: ftl).length = N)
    (hnodup : (((f0 :: ftl) ++ [(kl, vl, lt)]).map (fun e => e.1)).Nodup) :
    ∃ c', putSeq (LRUCache.empty K V N ttl) ((f0 :: ftl) ++ [(kl, vl, lt)]) =
        some c' ∧
      c'.cache.length = N ∧
      c'.cache.map Prod.fst =
        ((((f0 :: ftl) ++ [(kl, vl, lt)]).map (fun e => e.1)).drop 1) := by
  rw [List.map_append, List.nodup_append] at hnodup
  obtain ⟨hfnodup, _, hdisj⟩ := hnodup
  have hlknotin : kl ∉ (f0 :: ftl).map (fun e => e.1) := by
    intro hmem
    exact hdisj hmem (by simp)
  obtain ⟨c₁, h1, hc1, hm1, -⟩ := putSeq_fresh (f0 :: ftl)
    (LRUCache.empty K V N ttl) hfnodup
    (by intro k _; simp [alookup])
    (by simp [hlen])
  simp only [LRUCache.empty_cache, List.nil_append, List.map_cons] at hc1
  simp only [LRUCache.empty_max_size] at hm1
  have hkeys1 : c₁.cache.map Prod.fst = (f0 :: ftl).map (fun e => e.1) := by
    rw [hc1]
    simp
  have hlk : alookup c₁.cache kl = none := by
    apply alookup_eq_none_of_not_mem_keys
    rw [hkeys1]
    exact hlknotin
  have hfull : c₁.max_size ≤ c₁.cache.length := by
    rw [hm1, hc1]
    simp only [List.length_cons, List.length_map]
    simp only [List.length_cons] at hlen
    omega
  have hput : c₁.put kl vl lt = some
      { c₁ with cache := (ftl.map (fun e => (e.1, e.2.1))) ++ [(kl, vl)],
                timestamps := aset (aremove c₁.timestamps f0.1) kl lt } := by
    unfold LRUCache.put
    rw [hlk]
    simp only [Option.isSome_none, Bool.false_eq_true, if_false, if_pos hfull]
    rw [hc1]
    simp [aremove]
  refine ⟨{ c₁ with cache := (ftl.map (fun e => (e.1, e.2.1))) ++ [(kl, vl)], timestamps := aset (aremove c₁.timestamps f0.1) kl lt }, ?_, ?_, ?_⟩
  · rw [putSeq_append, h1]
    show putSeq c₁ [(kl, vl, lt)] = _
    simp only [putSeq, hput]
  · simp only [List.length_append, List.length_map, List.length_cons,
      List.length_nil]
    simp only [List.length_cons] at hlen
    omega
  · simp only [List.cons_append, List.map_append, List.map_cons, List.map_nil,
      List.map_map, List.drop_succ_cons, List.drop_zero]
    rfl

/-- C1. An `LRUCache` of capacity `N ≥ 1`: inserting `N + 1` pairwise
distinct keys into a fresh cache leaves exactly `N` entries, the surviving
keys being exactly the last `N` inserted (the least-recently-accessed first
key was evicted); and no sequence of `get`/`put` operations ever makes the
cache hold more than `N` entries. -/
theorem lru_cache_bounded_size [DecidableEq K] (N : ℕ) (hN : 1 ≤ N)
    (ttl : Option ℚ) (kvs : List (K × V × ℚ)) (hlen : kvs.length = N + 1)
    (hnodup : (kvs.map (fun e => e.1)).Nodup) :
    (∃ c', putSeq (LRUCache.empty K V N ttl) kvs = some c' ∧
        c'.cache.length = N ∧
        c'.cache.map Prod.fst = (kvs.map (fun e => e.1)).drop 1) ∧
    (∀ ops : List (CacheOp K V),
        (applyOps (LRUCache.empty K V N ttl) ops).cache.length ≤ N) := by
  constructor
  · obtain ⟨front, lastE, hsplit⟩ : ∃ L e, kvs = L ++ [e] := by
      cases hk : kvs with
      | nil =>
        rw [hk] at hlen
        simp at hlen
      | cons a l =>
        exact ⟨(a :: l).dropLast, (a :: l).getLast (by simp),
          (List.dropLast_append_getLast (by simp)).symm⟩
    rw [hsplit] at hlen hnodup ⊢
    cases hf : front with
    | nil =>
      rw [hf] at hlen
      simp at hlen
      omega
    | cons f0 ftl =>
      rw [hf] at hlen hnodup
      obtain ⟨kl, vl, lt⟩ := lastE
      refine putSeq_evict_last f0 ftl kl vl lt N ttl ?_ hnodup
      simp only [List.cons_append, List.length_append, List.length_cons,
        List.length_nil] at hlen
      simp only [List.length_cons]
      omega
  · intro ops
    exact applyOps_cache_length_le ops (LRUCache.empty K V N ttl)
      (by simp [LRUCache.empty])

/-- Witness for C1 at capacity 1: putting keys 0 then 1 leaves only key 1;
and a concrete operation sequence never exceeds size 1. -/
theorem lru_cache_bounded_size_witness :
    ((putSeq (LRUCache.empty ℕ ℕ 1 none) [(0, 5, 0), (1, 6, 0)]).map
      (fun c' => (c'.cache.length, c'.cache.map Prod.fst))) = some (1, [1]) ∧
    (applyOps (LRUCache.empty ℕ ℕ 1 none)
        [CacheOp.put 0 5 0, CacheOp.get 0 1, CacheOp.put 1 6 2]).cache.length
      ≤ 1 := by
  have h := lru_cache_bounded_size 1 (by norm_num) none
    [(0, 5, 0), (1, 6, 0)] (by simp) (by simp)
  obtain ⟨⟨c', hseq, hlen, hkeys⟩, hops⟩ := h
  constructor
  · rw [hseq]
    simp only [Option.map_some']
    rw [hlen, hkeys]
    rfl
  · exact hops _

/-- C3. With TTL `t`, a key whose timestamp is `s` (set by its `put`) and
which is present in the cache: a `get` strictly after `s + t` misses, and the
expired entry is removed from both the `OrderedDict` and the timestamp table
by the `get` itself; a `get` at or before `s + t` hits and moves the key to
the most-recently-used (last) position, preserving the relative order of the
other keys. -/
theorem lru_ttl_expiry_and_promotion [DecidableEq K] (c : LRUCache K V)
    (k : K) (v : V) (t s now : ℚ)
    (hwfc : (c.cache.map Prod.fst).Nodup)
    (hwft : (c.timestamps.map Prod.fst).Nodup)
    (httl : c.ttl = some t) (hts : alookup c.timestamps k = some s)
    (hmem : alookup c.cache k = some v) :
    (s + t < now →
      (c.get k now).1 = none ∧
      alookup ((c.get k now).2).cache k = none ∧
      alookup ((c.get k now).2).timestamps k = none) ∧
    (now ≤ s + t →
      (c.get k now).1 = some v ∧
      ((c.get k now).2).cache.map Prod.fst =
        ((c.cache.map Prod.fst).erase k) ++ [k]) := by
  have hexp : c.isExpired k now = decide (t < now - s) := by
    unfold LRUCache.isExpired
    rw [httl, hts]
    rfl
  constructor
  · intro hlt
    have he : c.isExpired k now = true := by
      rw [hexp]
      simp only [decide_eq_true_eq]
      linarith
    unfold LRUCache.get
    rw [hmem]
    simp only [he, if_true]
    exact ⟨trivial, alookup_aremove_self _ _ hwfc, alookup_aremove_self _ _ hwft⟩
  · intro hle
    have he : c.isExpired k now = false := by
      rw [hexp]
      simp only [decide_eq_false_iff_not, not_lt]
      linarith
    unfold LRUCache.get
    rw [hmem]
    simp only [he, Bool.false_eq_true, if_false]
    exact ⟨trivial, by simp [map_fst_aremove]⟩

/-- A concrete one-entry cache: capacity 2, TTL 5, key 0 inserted at
instant 1. -/
def lruSample : LRUCache ℕ ℕ :=
  { max_size := 2, ttl := some 5, cache := [(0, 9)], timestamps := [(0, 1)],
    hits := 0, misses := 0 }

/-- Witness for C3: on `lruSample`, a `get` at instant 7 (past `1 + 5`)
misses and purges the entry; a `get` at instant 3 hits and promotes. -/
theorem lru_ttl_expiry_and_promotion_witness :
    ((lruSample.get 0 7).1 = none ∧
      alookup ((lruSample.get 0 7).2).cache 0 = none ∧
      alookup ((lruSample.get 0 7).2).timestamps 0 = none) ∧
    ((lruSample.get 0 3).1 = some 9 ∧
      ((lruSample.get 0 3).2).cache.map Prod.fst =
        ((lruSample.cache.map Prod.fst).erase 0) ++ [0]) := by
  have h7 := lru_ttl_expiry_and_promotion lruSample 0 9 5 1 7
    (by simp [lruSample]) (by simp [lruSample]) rfl
    (by simp [lruSample, alookup]) (by simp [lruSample, alookup])
  have h3 := lru_ttl_expiry_and_promotion lruSample 0 9 5 1 3
    (by simp [lruSample]) (by simp [lruSample]) rfl
    (by simp [lruSample, alookup]) (by simp [lruSample, alookup])
  exact ⟨h7.1 (by norm_num), h3.2 (by norm_num)⟩

/-! ## `DotNetParser` (`repo_agent/parsers/dotnet_parser.py`)

The parser configuration and the environment are collapsed into `PCfg`:
availability of the two wrappers (`self._treesitter_wrapper` /
`self._roslyn_wrapper` being non-`None`), the constructor flags
`treesitter_fallback` and `prefer_roslyn_for_large_files`, and whether each
backend's invocation on the file at hand succeeds or raises. Results are
abstracted to the backend that produced the returned structure; a run yields
the ordered list of backends actually invoked (the fallback chain as
executed) and an outcome. `RunRes.fuelOut` models the unbounded mutual
recursion between `_parse_with_treesitter` and `_parse_with_roslyn` when
both are available, both keep failing and fallback is enabled
(a `RecursionError` in Python). -/

inductive AnalysisStrategy where
  | auto
  | treesitter
  | roslyn
  | hybrid
deriving DecidableEq

inductive Backend where
  | treesitter
  | roslyn
  | extractor
deriving DecidableEq

structure PCfg where
  ts_avail : Bool
  ros_avail : Bool
  fallback : Bool
  preferRoslyn : Bool
  ts_ok : Bool
  ros_ok : Bool
  ext_ok : Bool
deriving DecidableEq

inductive RunRes where
  | ok (winner : Backend)
  | err
  | fuelOut
deriving DecidableEq

/-- Embeds `self.roslyn_threshold = 50 * 1024`. -/
def roslynThreshold : ℕ := 50 * 1024

/-- Embeds `self.treesitter_threshold = 500 * 1024`. -/
def treesitterThreshold : ℕ := 500 * 1024

/-- Embeds `DotNetParser._select_strategy`: resolves a non-`AUTO` request against
availability; an unavailable explicit backend is substituted when
`treesitter_fallback` is set and the alternative exists, else the
`RuntimeError` is modelled as `Except.error`; `HYBRID` degrades to the
available single backend; `AUTO` is resolved later in `_parse_auto`. -/
def selectStrategy (cfg : PCfg) (strategy : AnalysisStrategy) :
    Except String AnalysisStrategy :=
  if strategy ≠ AnalysisStrategy.auto then
    if strategy = AnalysisStrategy.treesitter ∧ cfg.ts_avail = false then
      if cfg.fallback = true ∧ cfg.ros_avail = true then
        Except.ok AnalysisStrategy.roslyn
      else Except.error ("tree-sitter unavailable and fallback disabled")
    else if strategy = AnalysisStrategy.roslyn ∧ cfg.ros_avail = false then
      if cfg.fallback = true ∧ cfg.ts_avail = true then
        Except.ok AnalysisStrategy.treesitter
      else Except.error ("roslyn unavailable and fallback disabled")
    else if strategy = AnalysisStrategy.hybrid ∧
        ¬(cfg.ts_avail = true ∧ cfg.ros_avail = true) then
      Except.ok (if cfg.ros_avail = true then AnalysisStrategy.roslyn
                 else AnalysisStrategy.treesitter)
    else Except.ok strategy
  else Except.ok AnalysisStrategy.auto

/-- The branch structure of `DotNetParser._parse_auto`: which parse method
is invoked first for a given file size. -/
def autoChoice (cfg : PCfg) (fileSize : ℕ) : Backend :=
  if fileSize < roslynThreshold ∧ cfg.ros_avail = true then Backend.roslyn
  else if treesitterThreshold < fileSize ∧ cfg.ts_avail = true then
    Backend.treesitter
  else if cfg.preferRoslyn = true ∧ cfg.ros_avail = true then Backend.roslyn
  else if cfg.ts_avail = true then Backend.treesitter
  else if cfg.ros_avail = true then Backend.roslyn
  else Backend.extractor

/-- Embeds `_parse_with_treesitter` / `_parse_with_roslyn` / `_parse_with_extractor`
with their mutual fallback chains, fuelled. An unavailable backend raises
before invoking anything (empty trace); a failing available backend falls
back (when `treesitter_fallback` is set) to the other wrapper if available,
else to the built-in extractor; otherwise the exception propagates. -/
def runBackend : ℕ → PCfg → Backend → List Backend × RunRes
  | 0, _, _ => ([], RunRes.fuelOut)
  | _ + 1, cfg, Backend.extractor =>
    if cfg.ext_ok = true then ([Backend.extractor], RunRes.ok Backend.extractor)
    else ([Backend.extractor], RunRes.err)
  | fuel + 1, cfg, Backend.treesitter =>
    if cfg.ts_avail = false then ([], RunRes.err)
    else if cfg.ts_ok = true then
      ([Backend.treesitter], RunRes.ok Backend.treesitter)
    else if cfg.fallback = true then
      if cfg.ros_avail = true then
        let r := runBackend fuel cfg Backend.roslyn
        (Backend.treesitter :: r.1, r.2)
      else
        let r := runBackend fuel cfg Backend.extractor
        (Backend.treesitter :: r.1, r.2)
    else ([Backend.treesitter], RunRes.err)
  | fuel + 1, cfg, Backend.roslyn =>
    if cfg.ros_avail = false then ([], RunRes.err)
    else if cfg.ros_ok = true then ([Backend.roslyn], RunRes.ok Backend.roslyn)
    else if cfg.fallback = true then
      if cfg.ts_avail = true then
        let r := runBackend fuel cfg Backend.treesitter
        (Backend.roslyn :: r.1, r.2)
      else
        let r := runBackend fuel cfg Backend.extractor
        (Backend.roslyn :: r.1, r.2)
    else ([Backend.roslyn], RunRes.err)

/-- Embeds `_parse_with_hybrid`: tree-sitter first; for files under the large-file
threshold additionally Roslyn, whose merged structure wins; any exception in
the block falls back to a plain `_parse_with_roslyn` call. -/
def runHybrid (fuel : ℕ) (cfg : PCfg) (fileSize : ℕ) : List Backend × RunRes :=
  if ¬(cfg.ts_avail = true ∧ cfg.ros_avail = true) then
    runBackend fuel cfg Backend.roslyn
  else
    let r1 := runBackend fuel cfg Backend.treesitter
    match r1.2 with
    | RunRes.ok w1 =>
      if fileSize < treesitterThreshold then
        let r2 := runBackend fuel cfg Backend.roslyn
        match r2.2 with
        | RunRes.ok w2 => (r1.1 ++ r2.1, RunRes.ok w2)
        | RunRes.fuelOut => (r1.1 ++ r2.1, RunRes.fuelOut)
        | RunRes.err =>
          let r3 := runBackend fuel cfg Backend.roslyn
          (r1.1 ++ r2.1 ++ r3.1, r3.2)
      else (r1.1, RunRes.ok w1)
    | RunRes.err =>
      let r3 := runBackend fuel cfg Backend.roslyn
      (r1.1 ++ r3.1, r3.2)
    | RunRes.fuelOut => (r1.1, RunRes.fuelOut)

/-- Embeds `self._parse_cache`: `None` when caching is disabled, otherwise the dict
from resolved path to result. -/
structure ParserState where
  parseCache : Option (List (String × Backend))
deriving DecidableEq

/-- Python truthiness of `self._parse_cache`: both `None` and the empty dict
are falsy — this is the guard `if self._parse_cache:` used by `parse_file`
(lines 150 and 172) and `clear_cache`. -/
def dictTruthy : Option (List (String × Backend)) → Bool
  | none => false
  | some l => !l.isEmpty

/-- The dispatch at the heart of `parse_file`: run the resolved strategy. -/
def dispatchStrategy (fuel : ℕ) (cfg : PCfg) (fileSize : ℕ) :
    AnalysisStrategy → List Backend × RunRes
  | AnalysisStrategy.treesitter => runBackend fuel cfg Backend.treesitter
  | AnalysisStrategy.roslyn => runBackend fuel cfg Backend.roslyn
  | AnalysisStrategy.hybrid => runHybrid fuel cfg fileSize
  | AnalysisStrategy.auto => runBackend fuel cfg (autoChoice cfg fileSize)

/-- The tail of `parse_file`: cache the result of a successful parse (the
store is guarded by Python truthiness of `self._parse_cache`) and return
it. -/
def storeResult (st : ParserState) (path : String)
    (r : List Backend × RunRes) : ParserState × List Backend × RunRes :=
  match r.2 with
  | RunRes.ok w =>
    if dictTruthy st.parseCache = true then
      ({ parseCache := some (aset (st.parseCache.getD []) path w) }, r.1,
        RunRes.ok w)
    else (st, r.1, RunRes.ok w)
  | other => (st, r.1, other)

/-- `parse_file` after the cache probe: strategy selection (whose
`RuntimeError` propagates with no backend invoked), dispatch, store. -/
def parseFileGo (fuel : ℕ) (cfg : PCfg) (st : ParserState) (path : String)
    (fileSize : ℕ) : Except String AnalysisStrategy →
    ParserState × List Backend × RunRes
  | Except.error _ => (st, [], RunRes.err)
  | Except.ok s => storeResult st path (dispatchStrategy fuel cfg fileSize s)

/-- Embeds `DotNetParser.parse_file`: cache probe, strategy selection,
dispatch, cache store. The returned triple is the new parser state, the
list of backends invoked, and the outcome. -/
def parseFile (fuel : ℕ) (cfg : PCfg) (st : ParserState) (path : String)
    (fileSize : ℕ) (strategy : AnalysisStrategy) :
    ParserState × List Backend × RunRes :=
  if dictTruthy st.parseCache = true ∧
      (alookup (st.parseCache.getD []) path).isSome = true then
    (st, [],
      RunRes.ok ((alookup (st.parseCache.getD []) path).getD Backend.extractor))
  else
    parseFileGo fuel cfg st path fileSize (selectStrategy cfg strategy)

theorem storeResult_trace (st : ParserState) (path : String)
    (r : List Backend × RunRes) : (storeResult st path r).2.1 = r.1 := by
  rcases r with ⟨tr, res⟩
  cases res with
  | ok w =>
    by_cases hc : dictTruthy st.parseCache = true <;> simp [storeResult, hc]
  | err => simp [storeResult]
  | fuelOut => simp [storeResult]

/-- On a cache miss, the backends `parse_file` invokes are exactly those of
the dispatched (resolved) strategy. -/
theorem parseFile_miss_trace (fuel : ℕ) (cfg : PCfg) (st : ParserState)
    (path : String) (n : ℕ) (strat s : AnalysisStrategy)
    (hmiss : alookup (st.parseCache.getD []) path = none)
    (hsel : selectStrategy cfg strat = Except.ok s) :
    (parseFile fuel cfg st path n strat).2.1 =
      (dispatchStrategy fuel cfg n s).1 := by
  unfold parseFile
  rw [hmiss]
  simp only [Option.isSome_none, Bool.false_eq_true, and_false, if_false]
  rw [hsel]
  simp only [parseFileGo]
  exact storeResult_trace st path _

/-- A configuration with both wrappers available and working, fallback on,
`prefer_roslyn_for_large_files` at its default `False`. -/
def cfgAll : PCfg :=
  { ts_avail := true, ros_avail := true, fallback := true,
    preferRoslyn := false, ts_ok := true, ros_ok := true, ext_ok := true }

theorem runBackend_roslyn_head (cfg : PCfg) (fuel : ℕ)
    (h : cfg.ros_avail = true) :
    (runBackend (fuel + 1) cfg Backend.roslyn).1.head? = some Backend.roslyn := by
  cases hok : cfg.ros_ok <;> cases hfb : cfg.fallback <;>
    cases hts : cfg.ts_avail <;> simp [runBackend, h, hok, hfb, hts]

theorem runBackend_treesitter_head (cfg : PCfg) (fuel : ℕ)
    (h : cfg.ts_avail = true) :
    (runBackend (fuel + 1) cfg Backend.treesitter).1.head? =
      some Backend.treesitter := by
  cases hok : cfg.ts_ok <;> cases hfb : cfg.fallback <;>
    cases hros : cfg.ros_avail <;> simp [runBackend, h, hok, hfb, hros]

/-- C4. Automatic strategy with both backends available: files strictly under
the 50 KB threshold go to Roslyn (high-fidelity) first, files strictly over
the 500 KB threshold go to tree-sitter (fast) first; in particular 10 bytes
selects Roslyn and 2,000,000 bytes selects tree-sitter. The invoked-backend
trace indeed starts with the chosen backend. -/
theorem auto_strategy_size_thresholds (cfg : PCfg) (n fuel : ℕ)
    (hts : cfg.ts_avail = true) (hros : cfg.ros_avail = true) :
    (n < roslynThreshold → autoChoice cfg n = Backend.roslyn ∧
      (runBackend (fuel + 1) cfg (autoChoice cfg n)).1.head? =
        some Backend.roslyn) ∧
    (treesitterThreshold < n → autoChoice cfg n = Backend.treesitter ∧
      (runBackend (fuel + 1) cfg (autoChoice cfg n)).1.head? =
        some Backend.treesitter) ∧
    autoChoice cfg 10 = Backend.roslyn ∧
    autoChoice cfg 2000000 = Backend.treesitter := by
  refine ⟨?_, ?_, ?_, ?_⟩
  · intro hn
    have hchoice : autoChoice cfg n = Backend.roslyn := by
      unfold autoChoice
      rw [if_pos ⟨hn, hros⟩]
    refine ⟨hchoice, ?_⟩
    rw [hchoice]
    exact runBackend_roslyn_head cfg fuel hros
  · intro hn
    have hchoice : autoChoice cfg n = Backend.treesitter := by
      unfold autoChoice
      have h1 : ¬(n < roslynThreshold ∧ cfg.ros_avail = true) := by
        intro hcon
        have h2 := hcon.1
        unfold roslynThreshold at h2
        unfold treesitterThreshold at hn
        omega
      rw [if_neg h1, if_pos ⟨hn, hts⟩]
    refine ⟨hchoice, ?_⟩
    rw [hchoice]
    exact runBackend_treesitter_head cfg fuel hts
  · unfold autoChoice
    rw [if_pos ⟨by norm_num [roslynThreshold], hros⟩]
  · unfold autoChoice
    rw [if_neg (by rintro ⟨h1, -⟩; norm_num [roslynThreshold] at h1),
      if_pos ⟨by norm_num [treesitterThreshold], hts⟩]

/-- Witness for C4 at the spec's scenarios: 10 bytes and 2,000,000 bytes
under `cfgAll`. -/
theorem auto_strategy_size_thresholds_witness :
    (autoChoice cfgAll 10 = Backend.roslyn ∧
      (runBackend (0 + 1) cfgAll (autoChoice cfgAll 10)).1.head? =
        some Backend.roslyn) ∧
    (autoChoice cfgAll 2000000 = Backend.treesitter ∧
      (runBackend (0 + 1) cfgAll (autoChoice cfgAll 2000000)).1.head? =
        some Backend.treesitter) := by
  have h1 := auto_strategy_size_thresholds cfgAll 10 0 rfl rfl
  have h2 := auto_strategy_size_thresholds cfgAll 2000000 0 rfl rfl
  exact ⟨h1.1 (by norm_num [roslynThreshold]),
    h2.2.1 (by norm_num [treesitterThreshold])⟩

/-- C7 counterexample: under the default automatic configuration with both
backends available, a file of exactly the small-file threshold (51200 bytes)
and a file one byte above it (51201 bytes) select the SAME primary backend
(tree-sitter), contrary to the claim that they must differ. -/
theorem strategy_boundary_cex :
    autoChoice cfgAll 51200 = Backend.treesitter ∧
    autoChoice cfgAll 51201 = Backend.treesitter ∧
    autoChoice cfgAll 51200 = autoChoice cfgAll 51201 := by
  refine ⟨?_, ?_, ?_⟩ <;> decide

/-- C7 amended: the documented `<` boundary sits between `threshold - 1` and
`threshold`: one byte below the small-file threshold selects Roslyn, exactly
the threshold selects tree-sitter (both backends available,
`prefer_roslyn_for_large_files = False`), so THOSE two sizes select
different primary backends. -/
theorem strategy_boundary_amended (cfg : PCfg) (hts : cfg.ts_avail = true)
    (hros : cfg.ros_avail = true) (hpref : cfg.preferRoslyn = false) :
    autoChoice cfg (roslynThreshold - 1) = Backend.roslyn ∧
    autoChoice cfg roslynThreshold = Backend.treesitter ∧
    autoChoice cfg (roslynThreshold - 1) ≠ autoChoice cfg roslynThreshold := by
  have h1 : autoChoice cfg (roslynThreshold - 1) = Backend.roslyn := by
    unfold autoChoice
    rw [if_pos ⟨by norm_num [roslynThreshold], hros⟩]
  have h2 : autoChoice cfg roslynThreshold = Backend.treesitter := by
    unfold autoChoice
    rw [if_neg (by rintro ⟨hc, -⟩; exact absurd hc (lt_irrefl _)),
      if_neg (by rintro ⟨hc, -⟩; norm_num [roslynThreshold, treesitterThreshold] at hc),
      if_neg (by rintro ⟨hc, -⟩; rw [hpref] at hc; exact Bool.false_ne_true hc),
      if_pos hts]
  refine ⟨h1, h2, ?_⟩
  rw [h1, h2]
  decide

/-- Witness for the amended C7 under `cfgAll`: 51199 bytes → Roslyn,
51200 bytes → tree-sitter. -/
theorem strategy_boundary_amended_witness :
    autoChoice cfgAll (roslynThreshold - 1) = Backend.roslyn ∧
    autoChoice cfgAll roslynThreshold = Backend.treesitter ∧
    autoChoice cfgAll (roslynThreshold - 1) ≠ autoChoice cfgAll roslynThreshold :=
  strategy_boundary_amended cfgAll rfl rfl rfl

/-- C5. Explicit backend requested (`TREESITTER` or `ROSLYN`) but
unavailable: with `treesitter_fallback = True` and the alternative available,
`_select_strategy` substitutes the alternative and the call proceeds; with
`treesitter_fallback = False` it raises (modelled `Except.error`), and
`parse_file` then returns the error with an empty invocation trace — no
backend is invoked. -/
theorem explicit_strategy_fallback (cfg : PCfg) (strat : AnalysisStrategy)
    (h : (strat = AnalysisStrategy.treesitter ∧ cfg.ts_avail = false) ∨
         (strat = AnalysisStrategy.roslyn ∧ cfg.ros_avail = false)) :
    (cfg.fallback = true → strat = AnalysisStrategy.treesitter →
      cfg.ros_avail = true →
      selectStrategy cfg strat = Except.ok AnalysisStrategy.roslyn ∧
      (∀ fuel st path n, alookup (st.parseCache.getD []) path = none →
        (parseFile (fuel + 1) cfg st path n strat).2.1.head? =
          some Backend.roslyn)) ∧
    (cfg.fallback = true → strat = AnalysisStrategy.roslyn →
      cfg.ts_avail = true →
      selectStrategy cfg strat = Except.ok AnalysisStrategy.treesitter ∧
      (∀ fuel st path n, alookup (st.parseCache.getD []) path = none →
        (parseFile (fuel + 1) cfg st path n strat).2.1.head? =
          some Backend.treesitter)) ∧
    (cfg.fallback = false →
      (∃ e, selectStrategy cfg strat = Except.error e) ∧
      (∀ fuel st path n, alookup (st.parseCache.getD []) path = none →
        parseFile fuel cfg st path n strat = (st, [], RunRes.err))) := by
  rcases h with ⟨hstrat, hun⟩ | ⟨hstrat, hun⟩ <;> subst hstrat
  · refine ⟨?_, ?_, ?_⟩
    · intro hfb _ hros
      have hsel : selectStrategy cfg AnalysisStrategy.treesitter =
          Except.ok AnalysisStrategy.roslyn := by
        simp [selectStrategy, hun, hfb, hros]
      refine ⟨hsel, ?_⟩
      intro fuel st path n hmiss
      rw [parseFile_miss_trace (fuel + 1) cfg st path n _ _ hmiss hsel]
      exact runBackend_roslyn_head cfg fuel hros
    · intro _ habs _
      simp at habs
    · intro hfb
      have hsel : selectStrategy cfg AnalysisStrategy.treesitter =
          Except.error ("tree-sitter unavailable and fallback disabled") := by
        simp [selectStrategy, hun, hfb]
      refine ⟨⟨_, hsel⟩, ?_⟩
      intro fuel st path n hmiss
      unfold parseFile
      rw [hmiss]
      simp only [Option.isSome_none, Bool.false_eq_true, and_false, if_false]
      rw [hsel]
      simp only [parseFileGo]
  · refine ⟨?_, ?_, ?_⟩
    · intro _ habs _
      simp at habs
    · intro hfb _ hts
      have hsel : selectStrategy cfg AnalysisStrategy.roslyn =
          Except.ok AnalysisStrategy.treesitter := by
        simp [selectStrategy, hun, hfb, hts]
      refine ⟨hsel, ?_⟩
      intro fuel st path n hmiss
      rw [parseFile_miss_trace (fuel + 1) cfg st path n _ _ hmiss hsel]
      exact runBackend_treesitter_head cfg fuel hts
    · intro hfb
      have hsel : selectStrategy cfg AnalysisStrategy.roslyn =
          Except.error ("roslyn unavailable and fallback disabled") := by
        simp [selectStrategy, hun, hfb]
      refine ⟨⟨_, hsel⟩, ?_⟩
      intro fuel st path n hmiss
      unfold parseFile
      rw [hmiss]
      simp only [Option.isSome_none, Bool.false_eq_true, and_false, if_false]
      rw [hsel]
      simp only [parseFileGo]

/-- Tree-sitter unavailable, Roslyn available and working, fallback on. -/
def cfgSubst : PCfg :=
  { ts_avail := false, ros_avail := true, fallback := true,
    preferRoslyn := false, ts_ok := true, ros_ok := true, ext_ok := true }

/-- Tree-sitter unavailable, Roslyn available, fallback OFF. -/
def cfgNoFb : PCfg :=
  { ts_avail := false, ros_avail := true, fallback := false,
    preferRoslyn := false, ts_ok := true, ros_ok := true, ext_ok := true }

/-- Witness for C5: with fallback on, an explicit tree-sitter request is
substituted by Roslyn; with fallback off, `parse_file` fails fast with no
backend invoked (empty trace, state untouched). -/
theorem explicit_strategy_fallback_witness :
    selectStrategy cfgSubst AnalysisStrategy.treesitter =
      Except.ok AnalysisStrategy.roslyn ∧
    (parseFile 1 cfgSubst ⟨some []⟩ ("A.cs") 10
      AnalysisStrategy.treesitter).2.1.head? = some Backend.roslyn ∧
    parseFile 3 cfgNoFb ⟨some []⟩ ("A.cs") 10 AnalysisStrategy.treesitter =
      (⟨some []⟩, [], RunRes.err) := by
  have hA := explicit_strategy_fallback cfgSubst AnalysisStrategy.treesitter
    (Or.inl ⟨rfl, rfl⟩)
  have hB := explicit_strategy_fallback cfgNoFb AnalysisStrategy.treesitter
    (Or.inl ⟨rfl, rfl⟩)
  exact ⟨(hA.1 rfl rfl rfl).1,
    (hA.1 rfl rfl rfl).2 0 ⟨some []⟩ ("A.cs") 10 rfl,
    (hB.2.2 rfl).2 3 ⟨some []⟩ ("A.cs") 10 rfl⟩

/-- Both wrappers unavailable, fallback ON. -/
def cfgNone : PCfg :=
  { ts_avail := false, ros_avail := false, fallback := true,
    preferRoslyn := false, ts_ok := true, ros_ok := true, ext_ok := true }

/-- C6 counterexample: with both external backends unavailable and fallback
permitted, an explicit tree-sitter request makes `parse_file` raise with an
EMPTY invocation trace — the in-process extractor is never attempted, so the
effective backend chain neither is non-empty nor ends with the extractor. -/
theorem fallback_chain_cex :
    parseFile 9 cfgNone ⟨some []⟩ ("A.cs") 10 AnalysisStrategy.treesitter =
      (⟨some []⟩, [], RunRes.err) ∧
    Backend.extractor ∉
      (parseFile 9 cfgNone ⟨some []⟩ ("A.cs") 10
        AnalysisStrategy.treesitter).2.1 := by
  refine ⟨?_, ?_⟩ <;> decide

/-- C6 amended: the extractor terminates the chain only in specific
situations — under `AUTO` it is chosen (and invoked) when both wrappers are
unavailable; and with `treesitter_fallback = True` a failing available
backend whose alternative wrapper is unavailable falls back to the
extractor, so the executed chain ends with it. (It is NOT a universal
last resort: an explicitly requested unavailable backend without an
available alternative, or any failure with `treesitter_fallback = False`,
raises without the extractor being attempted — see the counterexample.) -/
theorem fallback_chain_extractor_amended (cfg : PCfg) (fuel n : ℕ) :
    (cfg.ts_avail = false → cfg.ros_avail = false →
      autoChoice cfg n = Backend.extractor ∧
      (runBackend (fuel + 1) cfg Backend.extractor).1 = [Backend.extractor]) ∧
    (cfg.fallback = true → cfg.ts_avail = true → cfg.ts_ok = false →
      cfg.ros_avail = false →
      (runBackend (fuel + 2) cfg Backend.treesitter).1 =
        [Backend.treesitter, Backend.extractor]) ∧
    (cfg.fallback = true → cfg.ros_avail = true → cfg.ros_ok = false →
      cfg.ts_avail = false →
      (runBackend (fuel + 2) cfg Backend.roslyn).1 =
        [Backend.roslyn, Backend.extractor]) := by
  refine ⟨?_, ?_, ?_⟩
  · intro h1 h2
    constructor
    · simp [autoChoice, h1, h2]
    · cases hext : cfg.ext_ok <;> simp [runBackend, hext]
  · intro hfb hts htok hros
    cases hext : cfg.ext_ok <;>
      simp [runBackend, hfb, hts, htok, hros, hext]
  · intro hfb hros hrok hts
    cases hext : cfg.ext_ok <;>
      simp [runBackend, hfb, hts, hrok, hros, hext]

/-- Tree-sitter available but failing, Roslyn unavailable, fallback on. -/
def cfgTsFail : PCfg :=
  { ts_avail := true, ros_avail := false, fallback := true,
    preferRoslyn := false, ts_ok := false, ros_ok := true, ext_ok := true }

/-- Roslyn available but failing, tree-sitter unavailable, fallback on. -/
def cfgRosFail : PCfg :=
  { ts_avail := false, ros_avail := true, fallback := true,
    preferRoslyn := false, ts_ok := true, ros_ok := false, ext_ok := true }

/-- Witness for the amended C6 in its three situations. -/
theorem fallback_chain_extractor_amended_witness :
    (autoChoice cfgNone 10 = Backend.extractor ∧
      (runBackend (0 + 1) cfgNone Backend.extractor).1 = [Backend.extractor]) ∧
    (runBackend (0 + 2) cfgTsFail Backend.treesitter).1 =
      [Backend.treesitter, Backend.extractor] ∧
    (runBackend (0 + 2) cfgRosFail Backend.roslyn).1 =
      [Backend.roslyn, Backend.extractor] := by
  have h1 := fallback_chain_extractor_amended cfgNone 0 10
  have h2 := fallback_chain_extractor_amended cfgTsFail 0 10
  have h3 := fallback_chain_extractor_amended cfgRosFail 0 10
  exact ⟨h1.1 rfl rfl, h2.2.1 rfl rfl rfl rfl, h3.2.2 rfl rfl rfl rfl⟩

/-- Tree-sitter available and working, Roslyn unavailable, fallback on. -/
def cfgTsOnly : PCfg :=
  { ts_avail := true, ros_avail := false, fallback := true,
    preferRoslyn := false, ts_ok := true, ros_ok := true, ext_ok := true }

/-- C10 (code bug): with caching enabled (`_parse_cache = {}`), a successful
`parse_file` leaves the cache EMPTY — the store at line 172 is guarded by
`if self._parse_cache:` which is false for the empty dict — so a second
`parse_file` of the same resolved path invokes a backend again instead of
returning the memoized object. This evaluates the embedded code at the
failing input: a fresh caching parser, tree-sitter working, the same path
parsed twice. -/
theorem parse_cache_never_stores :
    (parseFile 3 cfgTsOnly ⟨some []⟩ ("A.cs") 10 AnalysisStrategy.auto).1 =
      ⟨some []⟩ ∧
    (parseFile 3 cfgTsOnly ⟨some []⟩ ("A.cs") 10 AnalysisStrategy.auto).2 =
      ([Backend.treesitter], RunRes.ok Backend.treesitter) ∧
    (parseFile 3 cfgTsOnly
        ((parseFile 3 cfgTsOnly ⟨some []⟩ ("A.cs") 10
          AnalysisStrategy.auto).1)
        ("A.cs") 10 AnalysisStrategy.auto).2.1 = [Backend.treesitter] := by
  refine ⟨?_, ?_, ?_⟩ <;> decide

/-! ## Content fingerprint (`repo_agent/utils/performance.py`, lines 286–334)

The md5 digest is a deterministic function of the byte stream fed to
`hashlib.md5`, so fingerprint equality is settled on that stream: equal
streams give equal digests. `getFileContentHash` returns the stream —
the whole file for `_get_full_hash`, the three windows for the large-file
variant. Note that `_get_partial_hash` hashes ONLY the windows: the file
size is read for seeking but never fed into the hash. -/

/-- Embeds `self.config['large_file_threshold'] = 1024 * 1024`. -/
def largeFileThreshold : ℕ := 1024 * 1024

/-- The byte stream that `_get_partial_hash` feeds to md5: the first 4096
bytes, the 4096 bytes from offset `size // 2` when `size > 8192`, and the
last 4096 bytes (`f.seek(-4096, 2)`) when `size > 12288`. -/
def windowHashStream (data : List ℕ) : List ℕ :=
  (data.take 4096) ++
  (if 8192 < data.length then (data.drop (data.length / 2)).take 4096 else []) ++
  (if 12288 < data.length then data.drop (data.length - 4096) else [])

/-- The byte stream that `get_file_content_hash` feeds to md5: the whole
content at or below the large-file threshold (`_get_full_hash`), the window
stream strictly above it (`_get_partial_hash`). -/
def getFileContentHash (data : List ℕ) : List ℕ :=
  if largeFileThreshold < data.length then windowHashStream data else data

theorem windowHashStream_replicate (n : ℕ) (h : 12288 < n) :
    windowHashStream (List.replicate n 0) = List.replicate 12288 0 := by
  unfold windowHashStream
  rw [List.length_replicate]
  rw [if_pos (by omega), if_pos h]
  rw [List.take_replicate, List.drop_replicate, List.take_replicate,
    List.drop_replicate]
  have h1 : min 4096 n = 4096 := by omega
  have h2 : min 4096 (n - n / 2) = 4096 := by omega
  have h3 : n - (n - 4096) = 4096 := by omega
  rw [h1, h2, h3]
  rw [← List.replicate_add, ← List.replicate_add]

/-- C8 counterexample: two all-zero files of 1,048,577 and 2,000,000 bytes
are both above the 1 MB threshold, have different sizes and identical
start/middle/end windows, yet `get_file_content_hash` feeds md5 the SAME
byte stream for both — the size is never hashed — so they receive the same
fingerprint, contradicting the claim that they must differ. -/
theorem fingerprint_size_cex :
    largeFileThreshold < (List.replicate 1048577 (0 : ℕ)).length ∧
    largeFileThreshold < (List.replicate 2000000 (0 : ℕ)).length ∧
    (List.replicate 1048577 (0 : ℕ)).length ≠
      (List.replicate 2000000 (0 : ℕ)).length ∧
    getFileContentHash (List.replicate 1048577 0) =
      getFileContentHash (List.replicate 2000000 0) := by
  refine ⟨?_, ?_, ?_, ?_⟩
  · rw [List.length_replicate]
    norm_num [largeFileThreshold]
  · rw [List.length_replicate]
    norm_num [largeFileThreshold]
  · rw [List.length_replicate, List.length_replicate]
    norm_num
  · unfold getFileContentHash
    rw [List.length_replicate, List.length_replicate,
      if_pos (by norm_num [largeFileThreshold]),
      if_pos (by norm_num [largeFileThreshold]),
      windowHashStream_replicate 1048577 (by norm_num),
      windowHashStream_replicate 2000000 (by norm_num)]

/-- C8 amended: the fingerprint is the full content hash at or below the
large-file threshold; above it, only the three fixed windows are hashed (not
the size), so any two large files agreeing on all three windows — equal in
size or not — receive the same fingerprint. -/
theorem fingerprint_windows_amended (f g : List ℕ)
    (hf : largeFileThreshold < f.length) (hg : largeFileThreshold < g.length)
    (hstart : f.take 4096 = g.take 4096)
    (hmid : (f.drop (f.length / 2)).take 4096 =
      (g.drop (g.length / 2)).take 4096)
    (hend : f.drop (f.length - 4096) = g.drop (g.length - 4096)) :
    getFileContentHash f = getFileContentHash g ∧
    (∀ d : List ℕ, d.length ≤ largeFileThreshold → getFileContentHash d = d) := by
  constructor
  · unfold getFileContentHash windowHashStream
    rw [if_pos hf, if_pos hg]
    have h8f : 8192 < f.length := by
      unfold largeFileThreshold at hf
      omega
    have h8g : 8192 < g.length := by
      unfold largeFileThreshold at hg
      omega
    have h12f : 12288 < f.length := by
      unfold largeFileThreshold at hf
      omega
    have h12g : 12288 < g.length := by
      unfold largeFileThreshold at hg
      omega
    rw [if_pos h8f, if_pos h8g, if_pos h12f, if_pos h12g, hstart, hmid, hend]
  · intro d hd
    unfold getFileContentHash
    rw [if_neg (by omega)]

/-- Witness for the amended C8: all-zero files of 1,048,577 and 1,500,000
bytes share all three windows and get the same fingerprint; a 3-byte file is
fingerprinted by its full content. -/
theorem fingerprint_windows_amended_witness :
    getFileContentHash (List.replicate 1048577 0) =
      getFileContentHash (List.replicate 1500000 0) ∧
    getFileContentHash [1, 2, 3] = [1, 2, 3] := by
  have h := fingerprint_windows_amended (List.replicate 1048577 0)
    (List.replicate 1500000 0)
    (by rw [List.length_replicate]; norm_num [largeFileThreshold])
    (by rw [List.length_replicate]; norm_num [largeFileThreshold])
    (by rw [List.take_replicate, List.take_replicate]; congr 1)
    (by
      rw [List.length_replicate, List.length_replicate, List.drop_replicate,
        List.drop_replicate, List.take_replicate, List.take_replicate]
      congr 1)
    (by
      rw [List.length_replicate, List.length_replicate, List.drop_replicate,
        List.drop_replicate])
  exact ⟨h.1, h.2 [1, 2, 3] (by norm_num [largeFileThreshold])⟩

/-! ## `measure_performance` (`repo_agent/utils/performance.py`, 24–65 and
238–263) -/

structure PerformanceMetrics where
  operation_name : String
  start_time : ℚ
  end_time : Option ℚ
  duration : Option ℚ
  memory_start : Option ℤ
  memory_end : Option ℤ
  memory_peak : Option ℤ
  items_processed : ℕ
  success : Bool
  error_message : Option String
deriving DecidableEq

/-- Embeds `PerformanceMetrics(operation_name)` created at wall-clock `now`;
`success` defaults to `True`, everything else unset. -/
def PerformanceMetrics.init (opname : String) (now : ℚ) : PerformanceMetrics :=
  { operation_name := opname, start_time := now, end_time := none,
    duration := none, memory_start := none, memory_end := none,
    memory_peak := none, items_processed := 0, success := true,
    error_message := none }

/-- Embeds `PerformanceMetrics.finish` at wall-clock `now`. -/
def PerformanceMetrics.finish (m : PerformanceMetrics) (now : ℚ) (items : ℕ)
    (success : Bool) (err : Option String) : PerformanceMetrics :=
  { m with end_time := some now, duration := some (now - m.start_time),
           items_processed := items, success := success,
           error_message := err }

/-- The metrics object as yielded to the with-block body: fresh metrics plus
`memory_start`. -/
def initialMetrics (opname : String) (startNow : ℚ) (memStart : ℤ) :
    PerformanceMetrics :=
  { PerformanceMetrics.init opname startNow with
    memory_start := some memStart }

/-- The record the `finally` block of `measure_performance` appends to
`metrics_history`: the body's (possibly mutated) metrics object, finished
with `success=False` at `excNow` when the body raised, then stamped with
`memory_end`/`memory_peak`. The body is modelled as a function from the
yielded metrics object to the mutated object paired with `none` (normal
return) or `some msg` (raised exception message). -/
def measuredRecord (opname : String) (startNow : ℚ) (memStart : ℤ)
    (body : PerformanceMetrics → PerformanceMetrics × Option String)
    (excNow : ℚ) (memEnd memPeak : ℤ) : PerformanceMetrics :=
  { (match (body (initialMetrics opname startNow memStart)).2 with
     | some msg =>
       (body (initialMetrics opname startNow memStart)).1.finish excNow 0
         false (some msg)
     | none => (body (initialMetrics opname startNow memStart)).1) with
    memory_end := some memEnd, memory_peak := some memPeak }

/-- The history cap: `if len(self.metrics_history) > 1000:
self.metrics_history = self.metrics_history[-500:]`. -/
def trimHistory (l : List PerformanceMetrics) : List PerformanceMetrics :=
  if 1000 < l.length then l.drop (l.length - 500) else l

/-- Embeds `PerformanceOptimizer.measure_performance`: returns the new
`metrics_history` and the propagated exception (`none` on normal return). -/
def measurePerformance (hist : List PerformanceMetrics) (opname : String)
    (startNow : ℚ) (memStart : ℤ)
    (body : PerformanceMetrics → PerformanceMetrics × Option String)
    (excNow : ℚ) (memEnd memPeak : ℤ) :
    List PerformanceMetrics × Option String :=
  (trimHistory
      (hist ++ [measuredRecord opname startNow memStart body excNow memEnd
        memPeak]),
    (body (initialMetrics opname startNow memStart)).2)

theorem trimHistory_getLast? (l : List PerformanceMetrics)
    (m : PerformanceMetrics) :
    (trimHistory (l ++ [m])).getLast? = some m := by
  unfold trimHistory
  by_cases h : 1000 < (l ++ [m]).length
  · rw [if_pos h]
    rw [List.drop_append_of_le_length
      (by simp only [List.length_append, List.length_cons, List.length_nil] at h ⊢; omega)]
    rw [List.getLast?_append]
    rfl
  · rw [if_neg h]
    rw [List.getLast?_append]
    rfl

/-- C9 counterexample: a body that returns normally without calling
`finish` — exactly the repository's own
`with optimizer.measure_performance("test_operation"): ...` usage — makes
`measure_performance` append an UNFINALIZED metric (`end_time = None`) to
the history, contradicting the claim that every persisted record is
finalized. -/
theorem metrics_unfinalized_cex :
    ((measurePerformance [] ("op") 0 0 (fun m => (m, none)) 1 0 0).1.map
      (fun m => m.end_time)) = [none] ∧
    (measurePerformance [] ("op") 0 0 (fun m => (m, none)) 1 0 0).2 = none := by
  exact ⟨rfl, rfl⟩

/-- C9 amended: on the exception path the claim holds — when the body
raises, the record appended to the history is finalized at `excNow` with
`success = False` and the body's message, its `end_time ≥ start_time` under
clock monotonicity, and the same exception is re-raised; on the normal path
`measure_performance` itself never calls `finish`, so finalization of the
persisted record is the body's responsibility (see the counterexample). -/
theorem metrics_exception_path_amended (hist : List PerformanceMetrics)
    (opname : String) (startNow : ℚ) (memStart : ℤ)
    (body : PerformanceMetrics → PerformanceMetrics × Option String)
    (excNow : ℚ) (memEnd memPeak : ℤ) (msg : String)
    (hexc : (body (initialMetrics opname startNow memStart)).2 = some msg)
    (hstart : (body (initialMetrics opname startNow memStart)).1.start_time =
      startNow)
    (hmono : startNow ≤ excNow) :
    (measurePerformance hist opname startNow memStart body excNow memEnd
      memPeak).2 = some msg ∧
    (measurePerformance hist opname startNow memStart body excNow memEnd
      memPeak).1.getLast? =
      some (measuredRecord opname startNow memStart body excNow memEnd
        memPeak) ∧
    (measuredRecord opname startNow memStart body excNow memEnd
      memPeak).end_time = some excNow ∧
    (measuredRecord opname startNow memStart body excNow memEnd
      memPeak).success = false ∧
    (measuredRecord opname startNow memStart body excNow memEnd
      memPeak).error_message = some msg ∧
    (measuredRecord opname startNow memStart body excNow memEnd
      memPeak).start_time = startNow ∧
    startNow ≤ excNow := by
  have hrec : measuredRecord opname startNow memStart body excNow memEnd
      memPeak =
      { (body (initialMetrics opname startNow memStart)).1.finish excNow 0
          false (some msg) with
        memory_end := some memEnd, memory_peak := some memPeak } := by
    unfold measuredRecord
    rw [hexc]
  refine ⟨hexc, trimHistory_getLast? hist _, ?_, ?_, ?_, ?_, hmono⟩
  · rw [hrec]
    rfl
  · rw [hrec]
    rfl
  · rw [hrec]
    rfl
  · rw [hrec]
    show ((body (initialMetrics opname startNow memStart)).1.finish excNow 0
      false (some msg)).start_time = startNow
    unfold PerformanceMetrics.finish
    exact hstart

/-- Witness for the amended C9: a concrete raising body. -/
theorem metrics_exception_path_amended_witness :
    (measurePerformance [] ("op") 0 0 (fun m => (m, some ("boom"))) 2 5 7).2 =
      some ("boom") ∧
    (measurePerformance [] ("op") 0 0
      (fun m => (m, some ("boom"))) 2 5 7).1.getLast? =
      some (measuredRecord ("op") 0 0 (fun m => (m, some ("boom"))) 2 5 7) ∧
    (measuredRecord ("op") 0 0 (fun m => (m, some ("boom"))) 2 5 7).end_time =
      some 2 ∧
    (measuredRecord ("op") 0 0 (fun m => (m, some ("boom"))) 2 5 7).success =
      false := by
  have h := metrics_exception_path_amended [] ("op") 0 0
    (fun m => (m, some ("boom"))) 2 5 7 ("boom") rfl rfl (by norm_num)
  exact ⟨h.1, h.2.1, h.2.2.1, h.2.2.2.1⟩

end RepoAgent
